import Mathlib

/-!
Verification of the AI customer-support backend core:
keyword extraction, FAQ text parsing, FAQ relevance matching,
conversation-context assembly and conversation title assignment.

JavaScript strings are modelled as lists of characters (`Str`); the model is
faithful for ASCII data, which is all the fixed texts and examples use.
Fallible collaborator lookups are modelled with `Except`.
-/

namespace AiBackend

/-- JS strings, modelled as lists of characters. -/
abbrev Str := List Char

/-- Converts a Lean string literal into the model type. -/
def str (s : String) : Str := s.toList

/-- One character of `String.prototype.toLowerCase()` (ASCII range). -/
def lowerChar (c : Char) : Char :=
  if c.isUpper then Char.ofNat (c.toNat + 32) else c

/-- JS `s.toLowerCase()` (ASCII model). -/
def lowerStr (s : Str) : Str := s.map lowerChar

/-- Whitespace as matched by the JS regex class `\s` (ASCII range). -/
def isWS (c : Char) : Bool :=
  c = ' ' || c = '\t' || c = '\n' || c = '\r' || c = '\x0b' || c = '\x0c'

/-- Word characters as matched by the JS regex class `\w`:
ASCII letters, digits, and the underscore. -/
def isWordChar (c : Char) : Bool := c.isAlphanum || c = '_'

/-- JS `s.trim()` (ASCII whitespace model). -/
def jsTrim (s : Str) : Str :=
  ((s.dropWhile isWS).reverse.dropWhile isWS).reverse

/-- JS `s.includes(sub)`: substring containment. -/
def strContains (s sub : Str) : Bool :=
  sub.isPrefixOf s ||
    (match s with
     | [] => false
     | _ :: rest => strContains rest sub)

/-- JS `text.split('\n')`. -/
def splitOnNl : Str → List Str
  | [] => [[]]
  | c :: rest =>
    if c = '\n' then [] :: splitOnNl rest
    else
      match splitOnNl rest with
      | [] => [[c]]
      | t :: ts => (c :: t) :: ts

mutual

/-- JS `s.split(/\s+/)`, accumulating the current token (reversed) in `acc`. -/
def splitWsGo : Str → Str → List Str
  | [], acc => [acc.reverse]
  | c :: rest, acc =>
    if isWS c then acc.reverse :: splitWsSkip rest
    else splitWsGo rest (c :: acc)

/-- JS `s.split(/\s+/)` after a whitespace separator: skip the rest of the
whitespace run, then resume token accumulation. -/
def splitWsSkip : Str → List Str
  | [] => [[]]
  | c :: rest =>
    if isWS c then splitWsSkip rest
    else splitWsGo rest [c]

end

/-- JS `s.split(/\s+/)`: split on runs of whitespace. -/
def jsSplitWs (s : Str) : List Str := splitWsGo s []

/-- JS `[...new Set(words)]`, with `seen` the set contents so far: keep each
value's first occurrence, in first-seen order. -/
def jsDedupAux (seen : List Str) : List Str → List Str
  | [] => []
  | x :: xs =>
    if seen.contains x then jsDedupAux seen xs
    else x :: jsDedupAux (x :: seen) xs

/-- JS `[...new Set(words)]`: deduplicate keeping first occurrences, in
first-seen order. -/
def jsDedup (l : List Str) : List Str := jsDedupAux [] l

/-- JS `arr.join(' ')`. -/
def joinSpace : List Str → Str
  | [] => []
  | [t] => t
  | t :: ts => t ++ ' ' :: joinSpace ts

/-- The fixed stop-word list of `extractKeywords`. -/
def stopWords : List Str :=
  [str "the", str "and", str "or", str "but", str "in", str "on",
   str "at", str "to", str "for", str "of", str "with", str "by"]

/-- `extractKeywords(text)` from the FAQ admin routes: lower-case, strip all
characters outside `\w` and `\s`, split on whitespace runs, keep tokens longer
than 2 characters, drop stop words, deduplicate, and keep the first 10. -/
def extractKeywords (text : Str) : List Str :=
  let words :=
    ((jsSplitWs ((lowerStr text).filter (fun c => isWordChar c || isWS c))).filter
        (fun w => 2 < w.length)).filter
      (fun w => !(stopWords.contains w))
  (jsDedup words).take 10

/-! ### FAQ text parsing -/

/-- One parsed question/answer pair. -/
structure FAQPair where
  question : Str
  answer : Str
deriving DecidableEq, Repr

/-- The mutable state of the `parseFAQText` loop. -/
structure ParseState where
  faqs : List FAQPair
  currentQuestion : Str
  currentAnswer : Str
  isAnswer : Bool
deriving DecidableEq, Repr

/-- Does `line.toLowerCase()` start with `q:` or `question:`? -/
def isQLine (line : Str) : Bool :=
  (str "q:").isPrefixOf (lowerStr line) || (str "question:").isPrefixOf (lowerStr line)

/-- Does `line.toLowerCase()` start with `a:` or `answer:`? -/
def isALine (line : Str) : Bool :=
  (str "a:").isPrefixOf (lowerStr line) || (str "answer:").isPrefixOf (lowerStr line)

/-- JS `line.replace(/^(q:|question:)/i, '').trim()`. -/
def stripQ (line : Str) : Str :=
  jsTrim
    (if (str "q:").isPrefixOf (lowerStr line) then line.drop 2
     else if (str "question:").isPrefixOf (lowerStr line) then line.drop 9
     else line)

/-- JS `line.replace(/^(a:|answer:)/i, '').trim()`. -/
def stripA (line : Str) : Str :=
  jsTrim
    (if (str "a:").isPrefixOf (lowerStr line) then line.drop 2
     else if (str "answer:").isPrefixOf (lowerStr line) then line.drop 7
     else line)

/-- The flush performed by `parseFAQText` at a new `q:` line and at end of
input: emit the pending pair when both parts are non-empty. -/
def flushPair (st : ParseState) : List FAQPair :=
  if st.currentQuestion ≠ [] ∧ st.currentAnswer ≠ [] then
    st.faqs ++ [{ question := jsTrim st.currentQuestion, answer := jsTrim st.currentAnswer }]
  else st.faqs

/-- The body of the `for (const line of lines)` loop of `parseFAQText`. -/
def parseLine (st : ParseState) (line : Str) : ParseState :=
  if isQLine line then
    { faqs := flushPair st
      currentQuestion := stripQ line
      currentAnswer := []
      isAnswer := false }
  else if isALine line then
    { st with currentAnswer := stripA line, isAnswer := true }
  else if st.isAnswer then
    { st with currentAnswer := st.currentAnswer ++ ' ' :: line }
  else if st.currentQuestion ≠ [] then
    { st with currentQuestion := st.currentQuestion ++ ' ' :: line }
  else st

/-- The trimmed non-empty lines that `parseFAQText` iterates over. -/
def faqLines (text : Str) : List Str :=
  ((splitOnNl text).map jsTrim).filter (fun l => l ≠ [])

/-- The initial state of the `parseFAQText` loop. -/
def initParseState : ParseState :=
  { faqs := [], currentQuestion := [], currentAnswer := [], isAnswer := false }

/-- `parseFAQText(text)` from the FAQ admin routes. -/
def parseFAQText (text : Str) : List FAQPair :=
  flushPair ((faqLines text).foldl parseLine initParseState)

/-! ### FAQ relevance matching -/

/-- A stored FAQ entry, as the relevance matcher reads it. -/
structure FAQEntry where
  question : Str
  answer : Str
  keywords : List Str
deriving DecidableEq, Repr

/-- The match test of `findRelevantFAQ` for one candidate entry: some
lower-cased keyword occurs in the lower-cased message, or the lower-cased
message contains the lower-cased question, or the lower-cased question
contains the lower-cased message. -/
def matchesFAQ (messageLower : Str) (faq : FAQEntry) : Bool :=
  let questionLower := lowerStr faq.question
  let keywords := faq.keywords.map lowerStr
  keywords.any (fun k => strContains messageLower k) ||
    strContains messageLower questionLower ||
    strContains questionLower messageLower

/-- The `for (const faq of faqs)` scan of `findRelevantFAQ`: return the first
matching entry, else `none`. -/
def faqScan (messageLower : Str) : List FAQEntry → Option FAQEntry
  | [] => none
  | faq :: rest =>
    if matchesFAQ messageLower faq then some faq else faqScan messageLower rest

/-- `findRelevantFAQ(message)`: the FAQ store query either fails (the `catch`
returns `null`) or yields the candidate list, which is scanned in order. -/
def findRelevantFAQ (message : Str) (faqResult : Except Str (List FAQEntry)) :
    Option FAQEntry :=
  match faqResult with
  | .error _ => none
  | .ok faqs => faqScan (lowerStr message) faqs

/-! ### Context assembly and conversation state -/

/-- A message stored in a conversation. -/
structure StoredMsg where
  role : Str
  content : Str
  timestamp : Nat
deriving DecidableEq, Repr

/-- A role/content pair sent to the completion API. -/
structure CtxMsg where
  role : Str
  content : Str
deriving DecidableEq, Repr

/-- The fixed system prompt of the chat route. -/
def SYSTEM_PROMPT : Str :=
  str "You are a helpful and professional customer support assistant. \n- Be friendly, empathetic, and solution-oriented\n- Provide clear and concise answers\n- If you don\x27t know something, admit it and offer to connect the user with a human agent\n- Always maintain a professional tone while being approachable\n- Focus on resolving customer issues efficiently"

/-- The extra system message emitted when a FAQ matched:
JS template `Relevant FAQ: Q: ${faqMatch.question} A: ${faqMatch.answer}`. -/
def relevantFAQContent (faq : FAQEntry) : Str :=
  str "Relevant FAQ: Q: " ++ faq.question ++ str " A: " ++ faq.answer

/-- JS `arr.slice(-n)`: the last `n` elements (all of them when fewer). -/
def sliceLast (n : Nat) (l : List StoredMsg) : List StoredMsg :=
  l.drop (l.length - n)

/-- The `messages` array the chat route sends to the completion API: the fixed
system prompt, then (only on a FAQ match) one extra system message, then the
last 10 stored messages mapped to role/content pairs. -/
def buildContext (faqMatch : Option FAQEntry) (messages : List StoredMsg) :
    List CtxMsg :=
  { role := str "system", content := SYSTEM_PROMPT } ::
    ((match faqMatch with
      | some faq => [{ role := str "system", content := relevantFAQContent faq }]
      | none => []) ++
      (sliceLast 10 messages).map (fun m => { role := m.role, content := m.content }))

/-- A conversation document: its ordered message array and optional title. -/
structure Conversation where
  messages : List StoredMsg
  title : Option Str
deriving DecidableEq, Repr

/-- One exchange of the chat route, after a successful completion call: push
the user message, push the assistant reply, and set the title from the user
message (truncated to 50 characters plus an ellipsis when longer) exactly when
the conversation now holds 2 messages. -/
def processExchange (conv : Conversation) (message aiResponse : Str)
    (t1 t2 : Nat) : Conversation :=
  let afterUser :=
    conv.messages ++ [{ role := str "user", content := message, timestamp := t1 }]
  let afterAssistant :=
    afterUser ++ [{ role := str "assistant", content := aiResponse, timestamp := t2 }]
  if afterAssistant.length = 2 then
    { messages := afterAssistant
      title := some (if 50 < message.length then message.take 50 ++ str "..." else message) }
  else
    { messages := afterAssistant, title := conv.title }

/-- The chat route's request validation: `message`, `userId` and `sessionId`
must all be non-empty (JS truthiness of strings). -/
def chatRequestValid (message userId sessionId : Str) : Bool :=
  !(message.isEmpty || userId.isEmpty || sessionId.isEmpty)

/-! ### Specification-side definitions, following the spec's wording -/

/-- The spec's notion of substring: `sub` occurs contiguously inside `s`. -/
def IsSubstrOf (sub s : Str) : Prop := ∃ l r, s = l ++ sub ++ r

/-- The spec's match condition for one FAQ entry, as the relevance-matcher
claim words it: (a) some keyword is a substring of the lower-cased message,
(b) the lower-cased message contains the entry's lower-cased question, or
(c) the entry's lower-cased question contains the lower-cased message. -/
def specFAQMatch (message : Str) (faq : FAQEntry) : Prop :=
  (∃ k ∈ faq.keywords, IsSubstrOf k (lowerStr message)) ∨
    IsSubstrOf (lowerStr faq.question) (lowerStr message) ∨
    IsSubstrOf (lowerStr message) (lowerStr faq.question)

/-- Executable form of `specFAQMatch`, used to phrase the first-match scan. -/
def specFAQMatchB (message : Str) (faq : FAQEntry) : Bool :=
  faq.keywords.any (fun k => strContains (lowerStr message) k) ||
    strContains (lowerStr message) (lowerStr faq.question) ||
    strContains (lowerStr faq.question) (lowerStr message)

/-- The keyword-extraction pipeline as the spec words it, with the stripping
step amended to keep exactly the word characters (ASCII letters, digits and
the underscore): lower-case, strip, split on whitespace runs, drop tokens of
length at most 2, drop stop words, deduplicate in first-seen order, truncate
to the first 10 tokens. -/
def specKeywordPipeline (text : Str) : List Str :=
  let lowered := lowerStr text
  let stripped := lowered.filter (fun c => isWordChar c || isWS c)
  let tokens := jsSplitWs stripped
  let longTokens := tokens.filter (fun w => 2 < w.length)
  let meaningful := longTokens.filter (fun w => !(stopWords.contains w))
  (jsDedup meaningful).take 10

/-- The number of question-marker lines among the parser's input lines. -/
def countQ (lines : List Str) : Nat := (lines.filter isQLine).length

/-- Invariant of the `parseFAQText` loop relative to the number `k` of
question-marker lines processed so far: before any question marker nothing is
pending or emitted, and afterwards at most `k - 1` pairs have been emitted. -/
def stInv (st : ParseState) (k : Nat) : Prop :=
  (k = 0 → st.faqs = [] ∧ st.currentQuestion = []) ∧
  (1 ≤ k → st.faqs.length + 1 ≤ k)

/-! ### Helper lemmas on the string model -/

theorem char_toNat_ofNat_valid (n : Nat) (h : n.isValidChar) :
    (Char.ofNat n).toNat = n := by
  simp [Char.ofNat, Char.toNat, h, Char.ofNatAux]
  rfl

theorem uint32_le_iff (a b : UInt32) : a ≤ b ↔ a.toNat ≤ b.toNat := Iff.rfl

theorem char_isUpper_iff (c : Char) :
    c.isUpper = true ↔ 65 ≤ c.toNat ∧ c.toNat ≤ 90 := by
  simp [Char.isUpper, Char.toNat, uint32_le_iff]
  rfl

theorem lowerChar_idem (c : Char) : lowerChar (lowerChar c) = lowerChar c := by
  unfold lowerChar
  split
  · rename_i h
    rw [char_isUpper_iff] at h
    have hv : (c.toNat + 32).isValidChar := by
      left; omega
    have ht : (Char.ofNat (c.toNat + 32)).toNat = c.toNat + 32 :=
      char_toNat_ofNat_valid _ hv
    have hu : (Char.ofNat (c.toNat + 32)).isUpper = false := by
      rw [Bool.eq_false_iff]
      intro hup
      rw [char_isUpper_iff, ht] at hup
      omega
    simp [hu]
  · simp [*]

theorem strContains_nil (s : Str) : strContains s [] = true := by
  cases s <;> simp [strContains, List.isPrefixOf]

theorem isPrefixOf_iff (sub s : Str) :
    sub.isPrefixOf s = true ↔ ∃ r, s = sub ++ r := by
  induction sub generalizing s with
  | nil => simp [List.isPrefixOf]
  | cons c cs ih =>
    cases s with
    | nil => simp [List.isPrefixOf]
    | cons d ds =>
      simp only [List.isPrefixOf, Bool.and_eq_true, beq_iff_eq, ih, List.cons_append,
        List.cons.injEq]
      constructor
      · rintro ⟨rfl, r, rfl⟩
        exact ⟨r, rfl, rfl⟩
      · rintro ⟨r, rfl, rfl⟩
        exact ⟨rfl, r, rfl⟩

theorem strContains_iff (s sub : Str) :
    strContains s sub = true ↔ IsSubstrOf sub s := by
  induction s with
  | nil =>
    simp only [strContains, Bool.or_false, isPrefixOf_iff, IsSubstrOf]
    constructor
    · rintro ⟨r, hr⟩
      exact ⟨[], r, by simpa using hr⟩
    · rintro ⟨l, r, hlr⟩
      have hl : l = [] := by
        cases l with
        | nil => rfl
        | cons x xs => simp at hlr
      subst hl
      exact ⟨r, by simpa using hlr⟩
  | cons c cs ih =>
    simp only [strContains, Bool.or_eq_true, isPrefixOf_iff, ih, IsSubstrOf]
    constructor
    · rintro (⟨r, hr⟩ | ⟨l, r, hlr⟩)
      · exact ⟨[], r, by simpa using hr⟩
      · exact ⟨c :: l, r, by simp [hlr]⟩
    · rintro ⟨l, r, hlr⟩
      cases l with
      | nil =>
        left
        exact ⟨r, by simpa using hlr⟩
      | cons x xs =>
        right
        simp only [List.cons_append, List.cons.injEq] at hlr
        exact ⟨xs, r, hlr.2⟩

theorem sliceLast_eq_reverse_take (n : Nat) (l : List StoredMsg) :
    sliceLast n l = (l.reverse.take n).reverse := by
  rw [sliceLast, List.take_reverse, List.reverse_reverse]

/-! ### Claim theorems -/

/-- C3: parsing the two-line document with one `Q:` line and one `A:` line
yields exactly the one pair, with the marker prefixes stripped and the text
trimmed; and a document with two such Q/A pairs yields exactly the two pairs
in input order. -/
theorem faq_parse_examples :
    parseFAQText (str "Q: What is your refund policy?\nA: Refunds within 30 days.") =
      [{ question := str "What is your refund policy?",
         answer := str "Refunds within 30 days." }] ∧
    parseFAQText
        (str "Q: What is your refund policy?\nA: Refunds within 30 days.\nQ: How do I reset my password?\nA: Use the forgot password link.") =
      [{ question := str "What is your refund policy?",
         answer := str "Refunds within 30 days." },
       { question := str "How do I reset my password?",
         answer := str "Use the forgot password link." }] := by
  constructor <;> decide

/-- C8: when the FAQ store lookup fails, `findRelevantFAQ` returns `none`
instead of propagating the failure. -/
theorem faq_lookup_failure_none (message : Str) (err : Str) :
    findRelevantFAQ message (.error err) = none := rfl

/-- C10: on the empty message every non-empty candidate list yields its first
entry, because the entry's lower-cased question always contains the empty
string; and the chat route's validation rejects the empty message, so the
route never reaches the matcher with it. -/
theorem empty_message_matches_first (f : FAQEntry) (fs : List FAQEntry)
    (userId sessionId : Str) :
    findRelevantFAQ (str "") (.ok (f :: fs)) = some f ∧
    chatRequestValid (str "") userId sessionId = false := by
  constructor
  · have hm : matchesFAQ (lowerStr (str "")) f = true := by
      have h3 : strContains (lowerStr f.question) (lowerStr (str "")) = true := by
        have he : lowerStr (str "") = ([] : Str) := rfl
        rw [he]
        exact strContains_nil _
      simp [matchesFAQ, h3]
    simp [findRelevantFAQ, faqScan, hm]
  · simp [chatRequestValid, str, List.isEmpty]

theorem mem_jsDedupAux (x : Str) :
    ∀ (l seen : List Str), x ∈ jsDedupAux seen l → x ∈ l := by
  intro l
  induction l with
  | nil =>
    intro seen h
    simp [jsDedupAux] at h
  | cons y ys ih =>
    intro seen h
    rw [jsDedupAux] at h
    by_cases hc : seen.contains y = true
    · rw [if_pos hc] at h
      exact List.mem_cons_of_mem _ (ih seen h)
    · rw [if_neg (by simpa using (by simpa using hc : seen.contains y = false))] at h
      rcases List.mem_cons.mp h with rfl | h2
      · exact List.mem_cons_self _ _
      · exact List.mem_cons_of_mem _ (ih (y :: seen) h2)

theorem mem_jsDedup (x : Str) (l : List Str) (h : x ∈ jsDedup l) : x ∈ l :=
  mem_jsDedupAux x l [] h

theorem jsDedupAux_nodup :
    ∀ (l seen : List Str),
      (∀ y ∈ jsDedupAux seen l, y ∉ seen) ∧ (jsDedupAux seen l).Nodup := by
  intro l
  induction l with
  | nil =>
    intro seen
    simp [jsDedupAux]
  | cons y ys ih =>
    intro seen
    rw [jsDedupAux]
    by_cases hc : seen.contains y = true
    · rw [if_pos hc]
      exact ih seen
    · have hcf : seen.contains y = false := by simpa using hc
      rw [if_neg (by simpa using hcf)]
      have ihy := ih (y :: seen)
      constructor
      · intro z hz hzs
        rcases List.mem_cons.mp hz with rfl | h2
        · exact absurd (List.elem_eq_true_of_mem hzs) (by simpa using hcf)
        · exact (ihy.1 z h2) (List.mem_cons_of_mem _ hzs)
      · refine List.nodup_cons.mpr ⟨?_, ihy.2⟩
        intro hmem
        exact (ihy.1 y hmem) (List.mem_cons_self _ _)

theorem nodup_jsDedup (l : List Str) : (jsDedup l).Nodup :=
  (jsDedupAux_nodup l []).2

theorem jsDedupAux_eq_self :
    ∀ (l seen : List Str), l.Nodup → (∀ y ∈ l, y ∉ seen) →
      jsDedupAux seen l = l := by
  intro l
  induction l with
  | nil =>
    intro seen _ _
    rfl
  | cons y ys ih =>
    intro seen hnd hout
    rw [jsDedupAux]
    have hcf : seen.contains y = false := by
      have hym : y ∉ seen := hout y (List.mem_cons_self _ _)
      simpa using hym
    rw [if_neg (by simpa using hcf)]
    rw [ih (y :: seen) (List.nodup_cons.mp hnd).2]
    intro z hz
    intro hmem
    rcases List.mem_cons.mp hmem with rfl | h2
    · exact (List.nodup_cons.mp hnd).1 hz
    · exact (hout z (List.mem_cons_of_mem _ hz)) h2

theorem jsDedup_eq_self (l : List Str) (h : l.Nodup) : jsDedup l = l :=
  jsDedupAux_eq_self l [] h (by simp)

theorem splitWs_chars_aux :
    ∀ (n : Nat) (l : Str), l.length ≤ n →
      ((∀ acc : Str, (∀ c ∈ acc, isWS c = false) →
          ∀ t ∈ splitWsGo l acc, ∀ c ∈ t, (c ∈ l ∨ c ∈ acc) ∧ isWS c = false) ∧
        (∀ t ∈ splitWsSkip l, ∀ c ∈ t, c ∈ l ∧ isWS c = false)) := by
  intro n
  induction n with
  | zero =>
    intro l hl
    have hnil : l = [] := List.length_eq_zero.mp (Nat.le_zero.mp hl)
    subst hnil
    constructor
    · intro acc hacc t ht c hc
      rw [splitWsGo] at ht
      simp only [List.mem_singleton] at ht
      subst ht
      have hca : c ∈ acc := by simpa using hc
      exact ⟨Or.inr hca, hacc c hca⟩
    · intro t ht c hc
      rw [splitWsSkip] at ht
      simp only [List.mem_singleton] at ht
      subst ht
      simp at hc
  | succ n ih =>
    intro l hl
    cases l with
    | nil =>
      constructor
      · intro acc hacc t ht c hc
        rw [splitWsGo] at ht
        simp only [List.mem_singleton] at ht
        subst ht
        have hca : c ∈ acc := by simpa using hc
        exact ⟨Or.inr hca, hacc c hca⟩
      · intro t ht c hc
        rw [splitWsSkip] at ht
        simp only [List.mem_singleton] at ht
        subst ht
        simp at hc
    | cons c0 rest =>
      have hrest : rest.length ≤ n := by simpa using hl
      constructor
      · intro acc hacc t ht c hc
        rw [splitWsGo] at ht
        by_cases hws : isWS c0 = true
        · simp only [hws, if_true] at ht
          rcases List.mem_cons.mp ht with h1 | h2
          · subst h1
            have hca : c ∈ acc := by simpa using hc
            exact ⟨Or.inr hca, hacc c hca⟩
          · have := (ih rest hrest).2 t h2 c hc
            exact ⟨Or.inl (List.mem_cons_of_mem _ this.1), this.2⟩
        · have hwsf : isWS c0 = false := by simpa using hws
          simp only [hwsf, Bool.false_eq_true, if_false] at ht
          have hacc' : ∀ d ∈ c0 :: acc, isWS d = false := by
            intro d hd
            rcases List.mem_cons.mp hd with rfl | hd2
            · exact hwsf
            · exact hacc d hd2
          have := (ih rest hrest).1 (c0 :: acc) hacc' t ht c hc
          rcases this with ⟨hm | hm, hwsc⟩
          · exact ⟨Or.inl (List.mem_cons_of_mem _ hm), hwsc⟩
          · rcases List.mem_cons.mp hm with rfl | hm2
            · exact ⟨Or.inl (List.mem_cons_self _ _), hwsc⟩
            · exact ⟨Or.inr hm2, hwsc⟩
      · intro t ht c hc
        rw [splitWsSkip] at ht
        by_cases hws : isWS c0 = true
        · simp only [hws, if_true] at ht
          have := (ih rest hrest).2 t ht c hc
          exact ⟨List.mem_cons_of_mem _ this.1, this.2⟩
        · have hwsf : isWS c0 = false := by simpa using hws
          simp only [hwsf, Bool.false_eq_true, if_false] at ht
          have hacc' : ∀ d ∈ [c0], isWS d = false := by
            intro d hd
            rcases List.mem_singleton.mp hd with rfl
            exact hwsf
          have := (ih rest hrest).1 [c0] hacc' t ht c hc
          rcases this with ⟨hm | hm, hwsc⟩
          · exact ⟨List.mem_cons_of_mem _ hm, hwsc⟩
          · rcases List.mem_singleton.mp hm with rfl
            exact ⟨List.mem_cons_self _ _, hwsc⟩

theorem jsSplitWs_chars (l : Str) (t : Str) (ht : t ∈ jsSplitWs l) :
    ∀ c ∈ t, c ∈ l ∧ isWS c = false := by
  intro c hc
  have := (splitWs_chars_aux l.length l le_rfl).1 [] (by simp) t ht c hc
  simpa using this

theorem splitWsGo_append (t : Str) (ht : ∀ c ∈ t, isWS c = false) :
    ∀ (rest acc : Str), splitWsGo (t ++ rest) acc = splitWsGo rest (t.reverse ++ acc) := by
  induction t with
  | nil =>
    intro rest acc
    simp
  | cons c t ih =>
    intro rest acc
    have hc : isWS c = false := ht c (by simp)
    have ht' : ∀ d ∈ t, isWS d = false := fun d hd => ht d (by simp [hd])
    rw [List.cons_append, splitWsGo]
    simp only [hc, Bool.false_eq_true, if_false]
    rw [ih ht' rest (c :: acc)]
    congr 1
    simp

theorem splitWs_join_roundtrip :
    ∀ ts : List Str, ts ≠ [] → (∀ t ∈ ts, t ≠ [] ∧ ∀ c ∈ t, isWS c = false) →
      splitWsGo (joinSpace ts) [] = ts ∧ splitWsSkip (joinSpace ts) = ts := by
  intro ts
  induction ts with
  | nil =>
    intro h
    exact absurd rfl h
  | cons t ts ih =>
    intro _ hts
    have htne : t ≠ [] := (hts t (by simp)).1
    have htws : ∀ c ∈ t, isWS c = false := (hts t (by simp)).2
    cases ts with
    | nil =>
      have hgo : splitWsGo t [] = [t] := by
        have h1 := splitWsGo_append t htws [] []
        rw [List.append_nil] at h1
        rw [h1, splitWsGo]
        simp
      have hskip : splitWsSkip t = [t] := by
        cases t with
        | nil => exact absurd rfl htne
        | cons c tc =>
          have hc : isWS c = false := htws c (by simp)
          rw [splitWsSkip]
          simp only [hc, Bool.false_eq_true, if_false]
          rw [splitWsGo] at hgo
          simpa only [hc, Bool.false_eq_true, if_false] using hgo
      exact ⟨by simpa [joinSpace] using hgo, by simpa [joinSpace] using hskip⟩
    | cons t2 ts2 =>
      have hjoin : joinSpace (t :: t2 :: ts2) = t ++ ' ' :: joinSpace (t2 :: ts2) := rfl
      have ihs := ih (by simp) (fun x hx => hts x (by simp [hx]))
      have hGo : splitWsGo (joinSpace (t :: t2 :: ts2)) [] = t :: t2 :: ts2 := by
        rw [hjoin, splitWsGo_append t htws, List.append_nil, splitWsGo]
        have hsp : isWS ' ' = true := by decide
        simp only [hsp, if_true]
        rw [ihs.2]
        simp
      refine ⟨hGo, ?_⟩
      cases t with
      | nil => exact absurd rfl htne
      | cons c tc =>
        have hc : isWS c = false := htws c (by simp)
        rw [hjoin]
        simp only [splitWsSkip, hc, Bool.false_eq_true, if_false]
        rw [hjoin] at hGo
        simp only [splitWsGo, hc, Bool.false_eq_true, if_false] at hGo
        exact hGo

theorem mem_joinSpace (c : Char) :
    ∀ ts : List Str, c ∈ joinSpace ts → (∃ t ∈ ts, c ∈ t) ∨ c = ' ' := by
  intro ts
  induction ts with
  | nil =>
    intro h
    simp [joinSpace] at h
  | cons t ts ih =>
    intro h
    cases ts with
    | nil =>
      simp only [joinSpace] at h
      exact Or.inl ⟨t, by simp, h⟩
    | cons t2 ts2 =>
      have hj : joinSpace (t :: t2 :: ts2) = t ++ ' ' :: joinSpace (t2 :: ts2) := rfl
      rw [hj] at h
      rcases List.mem_append.mp h with h1 | h2
      · exact Or.inl ⟨t, by simp, h1⟩
      · rcases List.mem_cons.mp h2 with rfl | h3
        · exact Or.inr rfl
        · rcases ih h3 with ⟨u, hu, hcu⟩ | hsp
          · exact Or.inl ⟨u, by simp [hu], hcu⟩
          · exact Or.inr hsp

theorem extractKeywords_token_facts (text : Str) :
    ∀ k ∈ extractKeywords text, 2 < k.length ∧ stopWords.contains k = false ∧
      ∀ c ∈ k, isWS c = false ∧ isWordChar c = true ∧ lowerChar c = c := by
  intro k hk
  have hk1 : k ∈ jsDedup (((jsSplitWs ((lowerStr text).filter
      (fun c => isWordChar c || isWS c))).filter (fun w => 2 < w.length)).filter
      (fun w => !(stopWords.contains w))) := List.mem_of_mem_take hk
  have hk2 := mem_jsDedup k _ hk1
  have hstop : stopWords.contains k = false := by
    have := (List.mem_filter.mp hk2).2
    simpa using this
  have hk3 := (List.mem_filter.mp hk2).1
  have hlong : 2 < k.length := by
    have := (List.mem_filter.mp hk3).2
    simpa using this
  have hk4 := (List.mem_filter.mp hk3).1
  refine ⟨hlong, hstop, ?_⟩
  intro c hc
  have hchar := jsSplitWs_chars _ k hk4 c hc
  have hmemf := List.mem_filter.mp hchar.1
  have hword : isWordChar c = true := by
    have hp := hmemf.2
    simp only [Bool.or_eq_true] at hp
    rcases hp with hp | hp
    · exact hp
    · exact absurd hp (by simp [hchar.2])
  have hlower : lowerChar c = c := by
    rcases List.mem_map.mp hmemf.1 with ⟨c0, _, rfl⟩
    exact lowerChar_idem c0
  exact ⟨hchar.2, hword, hlower⟩

theorem extractKeywords_nodup (text : Str) : (extractKeywords text).Nodup :=
  (List.take_sublist _ _).nodup (nodup_jsDedup _)

theorem extractKeywords_len_le (text : Str) : (extractKeywords text).length ≤ 10 :=
  List.length_take_le _ _

theorem parse_nonmarker_fold (R : List Str) (st : ParseState)
    (hA : st.isAnswer = false) (hAns : st.currentAnswer = [])
    (hR : ∀ r ∈ R, isQLine r = false ∧ isALine r = false) :
    (R.foldl parseLine st).faqs = st.faqs ∧
    (R.foldl parseLine st).currentAnswer = [] ∧
    (R.foldl parseLine st).isAnswer = false := by
  induction R generalizing st with
  | nil => exact ⟨rfl, hAns, hA⟩
  | cons r R ih =>
    have hr := hR r (by simp)
    have hRrest : ∀ x ∈ R, isQLine x = false ∧ isALine x = false :=
      fun x hx => hR x (by simp [hx])
    rw [List.foldl_cons]
    by_cases hq : st.currentQuestion = []
    · have hstep : parseLine st r = st := by
        simp [parseLine, hr.1, hr.2, hA, hq]
      rw [hstep]
      exact ih st hA hAns hRrest
    · have hstep : parseLine st r =
          { st with currentQuestion := st.currentQuestion ++ ' ' :: r } := by
        simp [parseLine, hr.1, hr.2, hA, hq]
      rw [hstep]
      exact ih _ hA hAns hRrest

theorem parseLine_inv (st : ParseState) (line : Str) (k : Nat)
    (h : stInv st k) :
    stInv (parseLine st line) (k + (if isQLine line then 1 else 0)) := by
  by_cases hq : isQLine line = true
  · simp only [hq, if_true]
    constructor
    · intro h0
      omega
    · intro _
      have hflush : (flushPair st).length ≤ k := by
        cases Nat.eq_zero_or_pos k with
        | inl hk0 =>
          have := h.1 hk0
          simp [flushPair, this.2, this.1, hk0]
        | inr hk1 =>
          have hb := h.2 hk1
          unfold flushPair
          split
          · simp only [List.length_append, List.length_cons, List.length_nil]
            omega
          · omega
      simp only [parseLine, hq, if_true]
      simpa using hflush
  · have hqf : isQLine line = false := by simpa using hq
    simp only [hqf, Bool.false_eq_true, if_false, Nat.add_zero]
    have key : (parseLine st line).faqs = st.faqs ∧
        (st.currentQuestion = [] → (parseLine st line).currentQuestion = []) := by
      by_cases ha : isALine line = true
      · simp [parseLine, hqf, ha]
      · have haf : isALine line = false := by simpa using ha
        by_cases hia : st.isAnswer = true
        · simp [parseLine, hqf, haf, hia]
        · have hiaf : st.isAnswer = false := by simpa using hia
          by_cases hcq : st.currentQuestion = []
          · simp [parseLine, hqf, haf, hiaf, hcq]
          · simp [parseLine, hqf, haf, hiaf, hcq]
    exact ⟨fun h0 => ⟨by rw [key.1]; exact (h.1 h0).1, key.2 (h.1 h0).2⟩,
      fun h1 => by rw [key.1]; exact h.2 h1⟩

theorem fold_inv (L : List Str) (st : ParseState) (k : Nat) (h : stInv st k) :
    stInv (L.foldl parseLine st) (k + countQ L) := by
  induction L generalizing st k with
  | nil =>
    simpa [countQ] using h
  | cons l L ih =>
    rw [List.foldl_cons]
    have hc : countQ (l :: L) = (if isQLine l then 1 else 0) + countQ L := by
      by_cases hl : isQLine l = true
      · simp [countQ, List.filter_cons, hl]
        omega
      · simp [countQ, List.filter_cons, hl]
    rw [hc, ← Nat.add_assoc]
    exact ih _ _ (parseLine_inv st l k h)

/-- C4 counterexample: the document `Q: a\nQ: b\nA: x\nQ: c` ends in a
question marker followed by no answer marker, has 3 question-marker lines, yet
the parser yields 1 pair, not the 2 the claim's count demands. -/
theorem faq_parse_trailing_question_count_cex :
    faqLines (str "Q: a\nQ: b\nA: x\nQ: c") =
      [str "Q: a", str "Q: b", str "A: x"] ++ (str "Q: c") :: [] ∧
    isQLine (str "Q: c") = true ∧
    countQ (faqLines (str "Q: a\nQ: b\nA: x\nQ: c")) = 3 ∧
    parseFAQText (str "Q: a\nQ: b\nA: x\nQ: c") =
      [{ question := str "b", answer := str "x" }] ∧
    (parseFAQText (str "Q: a\nQ: b\nA: x\nQ: c")).length ≠
      countQ (faqLines (str "Q: a\nQ: b\nA: x\nQ: c")) - 1 := by
  decide

/-- C4 (amended): when the final question-marker line is followed by no
answer-marker line, the end-of-input flush emits nothing — the trailing
question yields no pair — and the output has at most one fewer pair than the
number of question-marker lines; the parser is total by construction, so no
input raises an error. -/
theorem faq_parse_trailing_question_dropped (text : Str) (L : List Str)
    (q : Str) (R : List Str)
    (hsplit : faqLines text = L ++ q :: R)
    (hq : isQLine q = true)
    (hR : ∀ r ∈ R, isQLine r = false ∧ isALine r = false) :
    parseFAQText text = ((faqLines text).foldl parseLine initParseState).faqs ∧
    (parseFAQText text).length + 1 ≤ countQ (faqLines text) := by
  have hQstate : (parseLine (L.foldl parseLine initParseState) q).isAnswer = false ∧
      (parseLine (L.foldl parseLine initParseState) q).currentAnswer = [] := by
    constructor <;> simp [parseLine, hq]
  have hfold : (faqLines text).foldl parseLine initParseState =
      R.foldl parseLine (parseLine (L.foldl parseLine initParseState) q) := by
    rw [hsplit, List.foldl_append, List.foldl_cons]
  have hpres := parse_nonmarker_fold R _ hQstate.1 hQstate.2 hR
  have hfinalAns : ((faqLines text).foldl parseLine initParseState).currentAnswer
      = [] := by
    rw [hfold]
    exact hpres.2.1
  have hmain : parseFAQText text =
      ((faqLines text).foldl parseLine initParseState).faqs := by
    simp [parseFAQText, flushPair, hfinalAns]
  refine ⟨hmain, ?_⟩
  have hinv := fold_inv (faqLines text) initParseState 0
    ⟨fun _ => ⟨rfl, rfl⟩, by omega⟩
  have hk : 1 ≤ countQ (faqLines text) := by
    rw [hsplit]
    simp [countQ, List.filter_append, List.filter_cons, hq]
    omega
  have hbound := hinv.2 (by omega)
  rw [hmain]
  omega

/-- Closed witness for the trailing-question theorem: a document whose last
question has no answer loses exactly that question. -/
theorem faq_parse_trailing_question_dropped_witness :
    parseFAQText (str "Q: a\nA: x\nQ: b") =
      (((faqLines (str "Q: a\nA: x\nQ: b"))).foldl parseLine initParseState).faqs ∧
    (parseFAQText (str "Q: a\nA: x\nQ: b")).length + 1 ≤
      countQ (faqLines (str "Q: a\nA: x\nQ: b")) :=
  faq_parse_trailing_question_dropped (str "Q: a\nA: x\nQ: b")
    [str "Q: a", str "A: x"] (str "Q: b") [] (by decide) (by decide)
    (by simp)

/-- C2: the built context is one fixed system message, then (exactly on a FAQ
match) one extra system message with the matched question and answer, then the
last 10 history messages in chronological order; for a 13-message history this
gives 11 messages without a match (the trailing 10 being items 4 through 13 in
original order) and 12 with one, the extra system message sitting directly
after the base prompt. -/
theorem context_assembly_spec (faq : FAQEntry) (msgs : List StoredMsg) :
    buildContext none msgs =
      { role := str "system", content := SYSTEM_PROMPT } ::
        ((msgs.reverse.take 10).reverse.map
          (fun m => { role := m.role, content := m.content })) ∧
    buildContext (some faq) msgs =
      { role := str "system", content := SYSTEM_PROMPT } ::
        { role := str "system", content := relevantFAQContent faq } ::
        ((msgs.reverse.take 10).reverse.map
          (fun m => { role := m.role, content := m.content })) ∧
    (msgs.length = 13 →
      (buildContext none msgs).length = 11 ∧
      buildContext none msgs =
        { role := str "system", content := SYSTEM_PROMPT } ::
          ((msgs.drop 3).map
            (fun m => ({ role := m.role, content := m.content } : CtxMsg))) ∧
      (buildContext (some faq) msgs).length = 12 ∧
      buildContext (some faq) msgs =
        { role := str "system", content := SYSTEM_PROMPT } ::
          { role := str "system", content := relevantFAQContent faq } ::
          ((msgs.drop 3).map
            (fun m => ({ role := m.role, content := m.content } : CtxMsg)))) := by
  have hslice : sliceLast 10 msgs = (msgs.reverse.take 10).reverse :=
    sliceLast_eq_reverse_take 10 msgs
  refine ⟨by simp [buildContext, hslice], by simp [buildContext, hslice], ?_⟩
  intro h13
  have hdrop : sliceLast 10 msgs = msgs.drop 3 := by
    simp [sliceLast, h13]
  have hlen : (msgs.drop 3).length = 10 := by
    simp [h13]
  refine ⟨?_, by simp [buildContext, hdrop], ?_, by simp [buildContext, hdrop]⟩
  · simp [buildContext, hdrop, hlen, h13]
  · simp [buildContext, hdrop, hlen, h13]

/-- Closed witness for the context-assembly theorem: a concrete 13-message
history, on which the hypothesis of its final conjunct is discharged. -/
theorem context_assembly_spec_witness :
    (buildContext none
        ((List.range 13).map
          (fun i => { role := str "user", content := str "m", timestamp := i }))).length
      = 11 := by
  have h := (context_assembly_spec
    { question := str "q", answer := str "a", keywords := [] }
    ((List.range 13).map
      (fun i => { role := str "user", content := str "m", timestamp := i }))).2.2
    (by simp)
  exact h.1

/-- C9: one successful exchange appends the user and assistant messages; the
title is set exactly when the conversation then holds 2 messages (equivalently
the history was empty before), to the user message truncated to its first 50
characters plus an ellipsis when longer than 50 characters and to the full
message otherwise; any other message count leaves the title unchanged. -/
theorem conversation_title_assignment (conv : Conversation)
    (message aiResponse : Str) (t1 t2 : Nat) :
    ((processExchange conv message aiResponse t1 t2).messages.length = 2 ↔
      conv.messages = []) ∧
    (conv.messages = [] →
      (processExchange conv message aiResponse t1 t2).title =
        some (if 50 < message.length then message.take 50 ++ str "..."
              else message)) ∧
    (conv.messages ≠ [] →
      (processExchange conv message aiResponse t1 t2).title = conv.title) := by
  by_cases hc : conv.messages = []
  · refine ⟨?_, fun _ => ?_, fun hne => absurd hc hne⟩
    · simp [processExchange, hc]
    · simp [processExchange, hc]
  · have hlen : conv.messages.length ≠ 0 := by
      simpa [List.length_eq_zero] using hc
    refine ⟨?_, fun he => absurd he hc, fun _ => ?_⟩
    · simp only [processExchange]
      split
      · rename_i hsplit
        simp only [List.length_append, List.length_cons, List.length_nil] at hsplit
        omega
      · rename_i hsplit
        simp only [List.length_append, List.length_cons, List.length_nil] at hsplit ⊢
        constructor
        · intro h2
          omega
        · intro h0
          exact absurd h0 hc
    · simp only [processExchange]
      split
      · rename_i hsplit
        simp only [List.length_append, List.length_cons, List.length_nil] at hsplit
        omega
      · rfl

/-- Closed witness for the title-assignment theorem, at an empty conversation
and a short message. -/
theorem conversation_title_assignment_witness :
    (processExchange { messages := [], title := none } (str "hi") (str "hello")
        0 1).title = some (str "hi") := by
  have h := (conversation_title_assignment { messages := [], title := none }
    (str "hi") (str "hello") 0 1).2.1 rfl
  simpa using h

/-- C5 counterexample: on input `foo_bar` the keyword extractor returns the
token `foo_bar`, so the underscore — a character that is neither alphanumeric
nor whitespace — survives into an output keyword, contradicting the claim. -/
theorem extract_keywords_underscore_cex :
    extractKeywords (str "foo_bar") = [str "foo_bar"] ∧
    '_' ∈ str "foo_bar" ∧
    Char.isAlphanum '_' = false ∧ isWS '_' = false := by
  decide

/-- C5 (amended): the extractor lower-cases, strips all characters that are
neither word characters (ASCII letters, digits or the underscore — the JS
class `\w`) nor whitespace, splits on whitespace runs, drops tokens of length
at most 2, drops stop words, deduplicates in first-seen order and truncates to
10; consequently every character of every output keyword is a word character
(so the underscore, but nothing else beyond alphanumerics, survives). -/
theorem extract_keywords_wordchar_pipeline (text : Str) :
    extractKeywords text = specKeywordPipeline text ∧
    ∀ k ∈ extractKeywords text, ∀ c ∈ k, isWordChar c = true := by
  refine ⟨rfl, ?_⟩
  intro k hk c hc
  exact ((extractKeywords_token_facts text k hk).2.2 c hc).2.1

/-- Closed witness for the amended C5 theorem, applied to the `foo_bar`
input and the surviving underscore character. -/
theorem extract_keywords_wordchar_pipeline_witness :
    isWordChar '_' = true :=
  (extract_keywords_wordchar_pipeline (str "foo_bar")).2
    (str "foo_bar") (by decide) '_' (by decide)

/-- C6: the extractor's result has at most 10 tokens, no duplicates, no stop
words and no tokens of length 2 or less, and the empty input yields the empty
result. -/
theorem extract_keywords_bounds (text : Str) :
    (extractKeywords text).length ≤ 10 ∧
    (extractKeywords text).Nodup ∧
    (∀ k ∈ extractKeywords text, 2 < k.length ∧ k ∉ stopWords) ∧
    extractKeywords (str "") = [] := by
  refine ⟨extractKeywords_len_le text, extractKeywords_nodup text, ?_, by decide⟩
  intro k hk
  have hf := extractKeywords_token_facts text k hk
  exact ⟨hf.1, by simpa using hf.2.1⟩

/-- Closed witness for the bounds theorem, at a concrete input and keyword. -/
theorem extract_keywords_bounds_witness :
    2 < (str "refund").length ∧ (str "refund") ∉ stopWords :=
  (extract_keywords_bounds (str "refund policy")).2.2.1 (str "refund") (by decide)

/-- C7: re-extracting keywords from the space-joined output of the extractor
returns that output unchanged — the extractor is idempotent on its own
normalized output. -/
theorem extract_keywords_idempotent (x : Str) :
    extractKeywords (joinSpace (extractKeywords x)) = extractKeywords x := by
  cases hts : extractKeywords x with
  | nil => decide
  | cons t ts =>
    have hnd : (t :: ts).Nodup := hts ▸ extractKeywords_nodup x
    have hlen : (t :: ts).length ≤ 10 := hts ▸ extractKeywords_len_le x
    have hmem : ∀ k ∈ t :: ts, 2 < k.length ∧ stopWords.contains k = false ∧
        ∀ c ∈ k, isWS c = false ∧ isWordChar c = true ∧ lowerChar c = c := by
      intro k hk
      exact extractKeywords_token_facts x k (hts ▸ hk)
    have h1 : lowerStr (joinSpace (t :: ts)) = joinSpace (t :: ts) := by
      have hfix : ∀ c ∈ joinSpace (t :: ts), lowerChar c = c := by
        intro c hc
        rcases mem_joinSpace c _ hc with ⟨u, hu, hcu⟩ | rfl
        · exact ((hmem u hu).2.2 c hcu).2.2
        · decide
      calc (joinSpace (t :: ts)).map lowerChar
          = (joinSpace (t :: ts)).map id := List.map_congr_left hfix
        _ = joinSpace (t :: ts) := List.map_id _
    have h2 : (joinSpace (t :: ts)).filter (fun c => isWordChar c || isWS c) =
        joinSpace (t :: ts) := by
      rw [List.filter_eq_self]
      intro c hc
      rcases mem_joinSpace c _ hc with ⟨u, hu, hcu⟩ | rfl
      · simp [((hmem u hu).2.2 c hcu).2.1]
      · decide
    have h3 : jsSplitWs (joinSpace (t :: ts)) = t :: ts := by
      refine (splitWs_join_roundtrip (t :: ts) (by simp) ?_).1
      intro u hu
      refine ⟨?_, fun c hc => ((hmem u hu).2.2 c hc).1⟩
      intro hnil
      have := (hmem u hu).1
      rw [hnil] at this
      simp at this
    have h4 : (t :: ts).filter (fun w => 2 < w.length) = t :: ts := by
      rw [List.filter_eq_self]
      intro a ha
      simpa using (hmem a ha).1
    have h5 : (t :: ts).filter (fun w => !(stopWords.contains w)) = t :: ts := by
      rw [List.filter_eq_self]
      intro a ha
      simpa using (hmem a ha).2.1
    have h6 : jsDedup (t :: ts) = t :: ts := jsDedup_eq_self _ hnd
    have h7 : (t :: ts).take 10 = t :: ts := List.take_of_length_le hlen
    calc extractKeywords (joinSpace (t :: ts))
        = (jsDedup (((jsSplitWs ((lowerStr (joinSpace (t :: ts))).filter
              (fun c => isWordChar c || isWS c))).filter
              (fun w => 2 < w.length)).filter
              (fun w => !(stopWords.contains w)))).take 10 := rfl
      _ = t :: ts := by rw [h1, h2, h3, h4, h5, h6, h7]

theorem faqScan_eq_find (message : Str) (faqs : List FAQEntry)
    (hkw : ∀ f ∈ faqs, ∀ k ∈ f.keywords, lowerStr k = k) :
    faqScan (lowerStr message) faqs = faqs.find? (specFAQMatchB message) := by
  induction faqs with
  | nil => rfl
  | cons f rest ih =>
    have hmap : f.keywords.map lowerStr = f.keywords := by
      have hf := hkw f (by simp)
      calc f.keywords.map lowerStr = f.keywords.map id :=
            List.map_congr_left (by simpa using hf)
        _ = f.keywords := List.map_id _
    have heq : matchesFAQ (lowerStr message) f = specFAQMatchB message f := by
      simp only [matchesFAQ, specFAQMatchB, hmap]
    have ihr := ih (fun g hg => hkw g (by simp [hg]))
    cases hm : specFAQMatchB message f with
    | true =>
      simp [faqScan, heq, hm, List.find?]
    | false =>
      simp [faqScan, heq, hm, List.find?, ihr]

/-- C1: over FAQ entries whose keywords are stored lower-cased (the data-model
invariant), the relevance matcher is exactly the first-match linear scan the
spec describes: it returns the first entry in the supplied order satisfying
condition (a), (b) or (c), and `none` when no entry does; the executable match
test coincides with the spec's substring conditions. -/
theorem relevance_matcher_scan_spec (message : Str) (faqs : List FAQEntry)
    (hkw : ∀ f ∈ faqs, ∀ k ∈ f.keywords, lowerStr k = k) :
    findRelevantFAQ message (.ok faqs) = faqs.find? (specFAQMatchB message) ∧
    ∀ f : FAQEntry, specFAQMatchB message f = true ↔ specFAQMatch message f := by
  constructor
  · exact faqScan_eq_find message faqs hkw
  · intro f
    simp only [specFAQMatchB, specFAQMatch, Bool.or_eq_true, List.any_eq_true,
      strContains_iff]
    exact or_assoc

/-- Closed witness for the matcher theorem, at the spec's password-reset
example entry whose keywords are all lower-case. -/
theorem relevance_matcher_scan_spec_witness :
    findRelevantFAQ (str "I need to reset my password please")
        (.ok [{ question := str "How do I reset my password?",
                answer := str "Use the forgot password link.",
                keywords := [str "reset", str "password"] }]) =
      [{ question := str "How do I reset my password?",
         answer := str "Use the forgot password link.",
         keywords := [str "reset", str "password"] }].find?
        (specFAQMatchB (str "I need to reset my password please")) :=
  (relevance_matcher_scan_spec (str "I need to reset my password please")
    [{ question := str "How do I reset my password?",
       answer := str "Use the forgot password link.",
       keywords := [str "reset", str "password"] }] (by decide)).1

end AiBackend
